import Mathlib

/-!
Verification of the noms value-storage core: the structural type system
(`type.go`), the binary value codec (modelled from the spec and pinned by the
token-level encodings in the codec test suite), and the naive
`BatchStoreAdaptor` (`batch_store.go`).

Machine integers of the wire format (uint8/uint32/uint64) are carried as `Nat`;
an IEEE-754 double is carried as its 64-bit pattern, since the codec moves the
bit pattern through unchanged and never does float arithmetic.
-/

namespace Noms

/-- The closed kind enumeration of the data model (`noms-kind`): Bool, Number,
String, Blob, Value, List, Map, Ref, Set, Struct, Type, plus the type-only
pseudo-kinds Cycle and Union. -/
inductive NomsKind where
  | bool | number | string | blob | value | list | map | ref | set
  | struct | type | cycle | union
deriving DecidableEq, Repr

/-- The kind tag written as a single uint8 in the wire format. The concrete
numbering is a model choice (it is not visible in the repository); every claim
depends only on its injectivity. -/
def NomsKind.tag : NomsKind → Nat
  | .bool => 0 | .number => 1 | .string => 2 | .blob => 3 | .value => 4
  | .list => 5 | .map => 6 | .ref => 7 | .set => 8 | .struct => 9
  | .type => 10 | .cycle => 11 | .union => 12

/-- One primitive item of the codec stream, mirroring the write/read interface
(writeUint8, writeUint32, writeUint64, writeFloat64, writeBool, writeString;
hashes go through writeString). A float64 is carried as its bit pattern. -/
inductive Tok where
  | u8 (v : Nat)
  | u32 (v : Nat)
  | u64 (v : Nat)
  | f64 (bits : Nat)
  | b (v : Bool)
  | s (v : String)
deriving DecidableEq, Repr

/-- The six kinds that have a primitive (payload-free singleton) type:
`MakePrimitiveType` of type.go accepts exactly Bool, Number, String, Blob,
Value and Type and fails on every other kind. -/
inductive PrimKind where
  | bool | number | string | blob | value | type
deriving DecidableEq, Repr

/-- The kind a primitive type describes. -/
def PrimKind.toKind : PrimKind → NomsKind
  | .bool => .bool
  | .number => .number
  | .string => .string
  | .blob => .blob
  | .value => .value
  | .type => .type

mutual
/-- A noms type descriptor (`Type` + `TypeDesc` of type.go): primitives carry
just a kind; List/Set/Ref carry one element type and Map two; a union carries
an ordered member list; a struct carries a name and ordered (field name, field
type) pairs; `cycle d` is the back-reference marker to the enclosing struct
type `d` levels up. -/
inductive Ty where
  | prim (k : PrimKind)
  | list (e : Ty)
  | set (e : Ty)
  | ref (e : Ty)
  | map (k v : Ty)
  | union (ms : TyList)
  | strct (name : String) (fields : FieldTys)
  | cycle (depth : Nat)

/-- Member list of a union type. -/
inductive TyList where
  | nil
  | cons (t : Ty) (ts : TyList)

/-- Ordered (field name, field type) pairs of a struct type. -/
inductive FieldTys where
  | nil
  | cons (n : String) (t : Ty) (fs : FieldTys)
end

mutual
/-- Canonical encoding of a type, as pinned token-for-token by the expected
encodings of the codec test suite: a primitive is its kind tag; List/Set/Ref
are the constructor tag followed by the element type; Map adds the value type;
a union is its tag, a uint32 member count, then each member; a struct is its
tag, its name, a uint32 field count, then each (field name, field type) pair;
a cycle marker is its tag plus the uint32 nesting depth. -/
def encTy : Ty → List Tok
  | .prim k => [.u8 k.toKind.tag]
  | .list e => .u8 NomsKind.list.tag :: encTy e
  | .set e => .u8 NomsKind.set.tag :: encTy e
  | .ref e => .u8 NomsKind.ref.tag :: encTy e
  | .map k v => .u8 NomsKind.map.tag :: (encTy k ++ encTy v)
  | .union ms => .u8 NomsKind.union.tag :: .u32 (tyListLen ms) :: encTys ms
  | .strct name fs =>
      .u8 NomsKind.struct.tag :: .s name :: .u32 (fieldTysLen fs) :: encFieldTys fs
  | .cycle d => [.u8 NomsKind.cycle.tag, .u32 d]

/-- Encoding of a union's member list, in order. -/
def encTys : TyList → List Tok
  | .nil => []
  | .cons t ts => encTy t ++ encTys ts

/-- Encoding of a struct type's field list: each field name followed by its
type, in order. -/
def encFieldTys : FieldTys → List Tok
  | .nil => []
  | .cons n t fs => .s n :: (encTy t ++ encFieldTys fs)

/-- Number of members of a union's member list. -/
def tyListLen : TyList → Nat
  | .nil => 0
  | .cons _ ts => tyListLen ts + 1

/-- Number of fields of a struct type's field list. -/
def fieldTysLen : FieldTys → Nat
  | .nil => 0
  | .cons _ _ fs => fieldTysLen fs + 1
end

/-- The primitive type singletons of type.go. -/
def BoolType : Ty := .prim .bool

/-- Number primitive type. -/
def NumberType : Ty := .prim .number

/-- String primitive type. -/
def StringType : Ty := .prim .string

/-- Blob primitive type. -/
def BlobType : Ty := .prim .blob

/-- Value (top) primitive type. -/
def ValueType : Ty := .prim .value

/-- Type primitive type. -/
def TypeType : Ty := .prim .type

example : encTy (.list (.prim .bool)) = [.u8 5, .u8 0] := rfl
example : encTy (.strct "S" (.cons "x" (.prim .number) .nil)) =
    [.u8 9, .s "S", .u32 1, .s "x", .u8 1] := rfl

/-- A string's sort key: the list of its character codes. -/
def strKey (v : String) : List Nat := v.data.map Char.toNat

theorem strKey_injective : Function.Injective strKey := by
  intro a b h
  have hc : Function.Injective Char.toNat := by
    intro c d hcd
    exact Char.ofNat_toNat c ▸ Char.ofNat_toNat d ▸ congrArg Char.ofNat hcd |>.symm ▸ rfl
  have hd : a.data = b.data := List.map_injective_iff.mpr hc h
  cases a; cases b; exact congrArg String.mk hd

/-- A token's sort key: constructor rank, numeric payload, string payload.
Used only to give tokens (and hence canonical encodings, as token lists in
lexicographic order) the total order that stands in for the total order on
content addresses (hashes) of §4.1. -/
def tokKey : Tok → Lex (Nat × Lex (Nat × List Nat))
  | .u8 v => toLex (0, toLex (v, []))
  | .u32 v => toLex (1, toLex (v, []))
  | .u64 v => toLex (2, toLex (v, []))
  | .f64 v => toLex (3, toLex (v, []))
  | .b v => toLex (4, toLex (cond v 1 0, []))
  | .s v => toLex (5, toLex (0, strKey v))

theorem tokKey_injective : Function.Injective tokKey := by
  intro x y h
  cases x <;> cases y <;>
      simp only [tokKey, toLex_inj, Prod.mk.injEq] at h <;>
      try simp_all
  · rename_i a c
    cases a <;> cases c <;> simp_all
  · exact strKey_injective h

instance : LinearOrder Tok := LinearOrder.lift' tokKey tokKey_injective

/-- The content address of a type. §3: two byte sequences are equal iff their
hashes are equal, so the model carries the canonical encoding itself as the
address; the total order on addresses is the lexicographic order on token
lists. -/
def typeAddr (t : Ty) : List Tok := encTy t

/-- `Type.Equals` (type.go): `other != nil && t.Ref() == other.Ref()` — false
against an absent value, otherwise content-address comparison. -/
def TypeEquals (t : Ty) (other : Option Ty) : Bool :=
  match other with
  | none => false
  | some u => decide (typeAddr t = typeAddr u)

/-- `Type.Kind` (type.go): the kind of the descriptor. -/
def Ty.kind : Ty → NomsKind
  | .prim k => k.toKind
  | .list _ => .list
  | .set _ => .set
  | .ref _ => .ref
  | .map _ _ => .map
  | .union _ => .union
  | .strct _ _ => .struct
  | .cycle _ => .cycle

/-- `Type.IsOrdered` (type.go): true for the Number, String and Ref kinds,
false for every other kind. -/
def Ty.IsOrdered (t : Ty) : Bool :=
  match t.kind with
  | .number | .string | .ref => true
  | _ => false

/-- `Type.Chunks` (type.go) returns the nil slice unconditionally: a type
value carries no chunk references. The element type `List Tok × Nat`
stands for a Ref (target hash plus height). -/
def TypeChunks (_ : Ty) : List (List Tok × Nat) := []

/-- `MakeListType` (type.go). -/
def MakeListType (e : Ty) : Ty := .list e

/-- `MakeSetType` (type.go). -/
def MakeSetType (e : Ty) : Ty := .set e

/-- `MakeMapType` (type.go). -/
def MakeMapType (k v : Ty) : Ty := .map k v

/-- `MakeRefType` (type.go). -/
def MakeRefType (e : Ty) : Ty := .ref e

/-- The comparison `unionTypes.Less` of type.go: member `i` sorts before
member `j` when its content address is smaller. -/
def unionLe (a b : Ty) : Prop := typeAddr a ≤ typeAddr b

instance : DecidableRel unionLe := fun a b => by
  unfold unionLe; infer_instance

/-- Conversion from a plain list to a union member list. -/
def TyList.ofList : List Ty → TyList
  | [] => .nil
  | t :: ts => .cons t (TyList.ofList ts)

/-- Conversion from a union member list to a plain list. -/
def TyList.toList : TyList → List Ty
  | .nil => []
  | .cons t ts => t :: TyList.toList ts

/-- `MakeUnionType` (type.go): sorts the given member types by content
address (`sort.Sort(unionTypes(elemType))`) and builds the union. It does not
deduplicate and does not collapse empty or singleton unions. -/
def MakeUnionType (elemTypes : List Ty) : Ty :=
  .union (TyList.ofList (List.insertionSort unionLe elemTypes))

/-- The member list of a union type (and `[]` on any other type). -/
def unionMembers : Ty → List Ty
  | .union ms => ms.toList
  | _ => []

/-- ASCII letter test for the field-name grammar `[a-zA-Z]`. -/
def isFieldAlpha (c : Char) : Bool :=
  ('a' ≤ c && c ≤ 'z') || ('A' ≤ c && c ≤ 'Z')

/-- Tail-character test for the field-name grammar `[a-zA-Z0-9_]`. -/
def isFieldTail (c : Char) : Bool :=
  isFieldAlpha c || ('0' ≤ c && c ≤ '9') || c = '_'

/-- `verifyFieldName` (type.go): the regular expression
`^[a-zA-Z][a-zA-Z0-9_]*$` as a decidable character test. -/
def verifyFieldName (name : String) : Bool :=
  match name.toList with
  | [] => false
  | c :: cs => isFieldAlpha c && cs.all isFieldTail

/-- Field-name ordering used to canonicalize struct fields: lexicographic on
the field names' character codes. -/
def fieldTyLe (a b : String × Ty) : Prop := strKey a.1 ≤ strKey b.1

instance : DecidableRel fieldTyLe := fun a b => by
  unfold fieldTyLe; infer_instance

/-- Conversion from a plain association list to a struct type's field list. -/
def FieldTys.ofList : List (String × Ty) → FieldTys
  | [] => .nil
  | (n, t) :: fs => .cons n t (FieldTys.ofList fs)

/-- `MakeStructType` (type.go): verifies every field name against
`verifyFieldName` and fails (the `d.Exp.True` panic, modelled as `none`) when
one is invalid. The Go field container is an unordered map; the model stores
the canonical (name-sorted) field order that the encoder of the map-backed
struct emits. -/
def MakeStructType (name : String) (fields : List (String × Ty)) : Option Ty :=
  if fields.all (fun f => verifyFieldName f.1) then
    some (.strct name (FieldTys.ofList (List.insertionSort fieldTyLe fields)))
  else none

mutual
/-- A noms value of the grammar exercised by the codec round-trip suite:
booleans, numbers (as IEEE-754 bit patterns), strings, structs, refs, type
values, and lists and sets in both leaf and meta (chunked) form. -/
inductive Value where
  | bool (v : Bool)
  | num (bits : Nat)
  | str (v : String)
  | strct (name : String) (fields : FieldVals)
  | refV (targetTy : Ty) (target : String) (height : Nat)
  | typeV (t : Ty)
  | listLeaf (es : Values)
  | setLeaf (es : Values)
  | listMeta (ts : Tuples)
  | setMeta (ts : Tuples)

/-- Element list of a leaf sequence. -/
inductive Values where
  | nil
  | cons (v : Value) (vs : Values)

/-- Ordered (field name, field value) pairs of a struct value. -/
inductive FieldVals where
  | nil
  | cons (n : String) (v : Value) (fs : FieldVals)

/-- Tuple list of a meta sequence node. -/
inductive Tuples where
  | nil
  | cons (t : MetaTuple) (ts : Tuples)

/-- One meta-sequence entry: the child chunk's Ref (target type, hash,
height), the ordering key, and the cumulative count. -/
inductive MetaTuple where
  | mk (childTy : Ty) (target : String) (height : Nat) (key : Value) (count : Nat)
end

/-- Number of elements of a leaf sequence. -/
def valuesLen : Values → Nat
  | .nil => 0
  | .cons _ vs => valuesLen vs + 1

/-- Number of fields of a struct value. -/
def fieldValsLen : FieldVals → Nat
  | .nil => 0
  | .cons _ _ fs => fieldValsLen fs + 1

/-- Number of tuples of a meta-sequence node. -/
def tuplesLen : Tuples → Nat
  | .nil => 0
  | .cons _ ts => tuplesLen ts + 1

/-- The element type a List/Set type constrains its members to (`Value` on a
non-collection type, which the observed-type computation never feeds it). -/
def elemOfTy : Ty → Ty
  | .list e => e
  | .set e => e
  | _ => ValueType

/-- First-occurrence deduplication of a type list, keyed on content address;
`seen` accumulates the addresses already kept. -/
def dedupTysAux : List Ty → List (List Tok) → List Ty
  | [], _ => []
  | t :: ts, seen =>
      if typeAddr t ∈ seen then dedupTysAux ts seen
      else t :: dedupTysAux ts (typeAddr t :: seen)

/-- Deduplication of observed element types, keyed on content address. -/
def dedupTys (ts : List Ty) : List Ty := dedupTysAux ts []

/-- The element type the encoder writes in a collection's header: the single
observed type when the elements are homogeneous, otherwise a union of the
deduplicated observed types sorted by content address (an empty union for an
empty collection). -/
def unionOfObserved (ts : List Ty) : Ty :=
  match dedupTys ts with
  | [t] => t
  | ds => .union (TyList.ofList (List.insertionSort unionLe ds))

mutual
/-- The type of a value, as the type-directed encoder observes it. -/
def typeOf : Value → Ty
  | .bool _ => BoolType
  | .num _ => NumberType
  | .str _ => StringType
  | .strct name fs => .strct name (fieldTysOfVals fs)
  | .refV t _ _ => .ref t
  | .typeV _ => TypeType
  | .listLeaf es => .list (unionOfObserved (typesOfValues es))
  | .setLeaf es => .set (unionOfObserved (typesOfValues es))
  | .listMeta ts => .list (unionOfObserved (dedupTys (elemTysOfTuples ts)))
  | .setMeta ts => .set (unionOfObserved (dedupTys (elemTysOfTuples ts)))

/-- The (field name, field type) pairs of a struct value's fields. -/
def fieldTysOfVals : FieldVals → FieldTys
  | .nil => .nil
  | .cons n v fs => .cons n (typeOf v) (fieldTysOfVals fs)

/-- The observed types of a leaf sequence's elements, in order. -/
def typesOfValues : Values → List Ty
  | .nil => []
  | .cons v vs => typeOf v :: typesOfValues vs

/-- The element types contributed by a meta node's children (each child chunk
is a collection one level down whose element type constrains this node). -/
def elemTysOfTuples : Tuples → List Ty
  | .nil => []
  | .cons (.mk childTy _ _ _ _) ts => elemOfTy childTy :: elemTysOfTuples ts
end

/-- The struct-type header the encoder writes inside a struct value: each
field name followed by the field value's observed type, in field order. -/
def encFieldTyHeader : FieldVals → List Tok
  | .nil => []
  | .cons n v fs => .s n :: (encTy (typeOf v) ++ encFieldTyHeader fs)

mutual
/-- Canonical value encoding, token-for-token as pinned by the expected
encodings of the codec test suite: every value starts with its kind tag; a
struct writes its name, field count, the (field name, field type) header, then
the field values in the same order; a ref writes its target type, target hash
and height; a leaf collection writes its element-type header, `isMeta = false`,
the element count, then the elements; a meta collection writes the header,
`isMeta = true`, the tuple count, then each tuple as child Ref, ordering key
and cumulative count. -/
def encVal : Value → List Tok
  | .bool v => [.u8 NomsKind.bool.tag, .b v]
  | .num bits => [.u8 NomsKind.number.tag, .f64 bits]
  | .str v => [.u8 NomsKind.string.tag, .s v]
  | .strct name fs =>
      .u8 NomsKind.struct.tag :: .s name :: .u32 (fieldValsLen fs) ::
        (encFieldTyHeader fs ++ encFieldVals fs)
  | .refV t target height =>
      .u8 NomsKind.ref.tag :: (encTy t ++ [.s target, .u64 height])
  | .typeV t => .u8 NomsKind.type.tag :: encTy t
  | .listLeaf es =>
      .u8 NomsKind.list.tag ::
        (encTy (unionOfObserved (typesOfValues es)) ++
          (.b false :: .u32 (valuesLen es) :: encValues es))
  | .setLeaf es =>
      .u8 NomsKind.set.tag ::
        (encTy (unionOfObserved (typesOfValues es)) ++
          (.b false :: .u32 (valuesLen es) :: encValues es))
  | .listMeta ts =>
      .u8 NomsKind.list.tag ::
        (encTy (unionOfObserved (dedupTys (elemTysOfTuples ts))) ++
          (.b true :: .u32 (tuplesLen ts) :: encTuples ts))
  | .setMeta ts =>
      .u8 NomsKind.set.tag ::
        (encTy (unionOfObserved (dedupTys (elemTysOfTuples ts))) ++
          (.b true :: .u32 (tuplesLen ts) :: encTuples ts))

/-- Encoding of a leaf sequence's elements, each tagged, in order. -/
def encValues : Values → List Tok
  | .nil => []
  | .cons v vs => encVal v ++ encValues vs

/-- Encoding of a struct's field values, each tagged, in field order. -/
def encFieldVals : FieldVals → List Tok
  | .nil => []
  | .cons _ v fs => encVal v ++ encFieldVals fs

/-- Encoding of a meta node's tuples: for each tuple a Ref to the child chunk
(kind tag, target type, hash, height), the tagged ordering key, and the
cumulative count as a uint64. -/
def encTuples : Tuples → List Tok
  | .nil => []
  | .cons (.mk childTy target height key count) ts =>
      (.u8 NomsKind.ref.tag :: (encTy childTy ++ [.s target, .u64 height])) ++
        (encVal key ++ (.u64 count :: encTuples ts))
end

/-- Field ordering of struct values: lexicographic on the field names'
character codes. -/
def fieldValLe (a b : String × Value) : Prop := strKey a.1 ≤ strKey b.1

instance : DecidableRel fieldValLe := fun a b => by
  unfold fieldValLe; infer_instance

/-- Conversion from a plain association list to a struct value's field list. -/
def FieldVals.ofList : List (String × Value) → FieldVals
  | [] => .nil
  | (n, v) :: fs => .cons n v (FieldVals.ofList fs)

/-- The field names of a struct value, in stored (canonical) order. -/
def fieldNamesOfVals : FieldVals → List String
  | .nil => []
  | .cons n _ fs => n :: fieldNamesOfVals fs

/-- `newStruct`: builds a struct value from (field name, field value) pairs
given in insertion order; the stored order — which is the order the encoder
and decoder use — is the canonical one, the field names sorted. -/
def newStruct (name : String) (fields : List (String × Value)) : Value :=
  .strct name (FieldVals.ofList (List.insertionSort fieldValLe fields))

/-- Bit pattern of the IEEE-754 double `+0`. -/
def f64PosZero : Nat := 0

/-- Bit pattern of the IEEE-754 double `-0`: only the sign bit set. -/
def f64NegZero : Nat := 2 ^ 63

mutual
/-- Modelled from the spec: structural equality compares values by the
content address of their canonical encoding (§3), with the sign of zero
insignificant (§4.3) — so the comparison first rewrites every `-0` bit
pattern to `+0`. (The equality implementation itself is not part of the
sources; only its test harness is.) -/
def normZeros : Value → Value
  | .bool v => .bool v
  | .num bits => .num (if bits = f64NegZero then f64PosZero else bits)
  | .str v => .str v
  | .strct name fs => .strct name (normZerosFields fs)
  | .refV t target height => .refV t target height
  | .typeV t => .typeV t
  | .listLeaf es => .listLeaf (normZerosValues es)
  | .setLeaf es => .setLeaf (normZerosValues es)
  | .listMeta ts => .listMeta (normZerosTuples ts)
  | .setMeta ts => .setMeta (normZerosTuples ts)

/-- Zero-sign normalization of a leaf sequence's elements. -/
def normZerosValues : Values → Values
  | .nil => .nil
  | .cons v vs => .cons (normZeros v) (normZerosValues vs)

/-- Zero-sign normalization of a struct's field values. -/
def normZerosFields : FieldVals → FieldVals
  | .nil => .nil
  | .cons n v fs => .cons n (normZeros v) (normZerosFields fs)

/-- Zero-sign normalization of a meta node's ordering keys. -/
def normZerosTuples : Tuples → Tuples
  | .nil => .nil
  | .cons (.mk childTy target height key count) ts =>
      .cons (.mk childTy target height (normZeros key) count) (normZerosTuples ts)
end

/-- Modelled from the spec: the structural equality `equals` of the round-trip
harness — values are equal iff their canonical encodings (content addresses)
agree after zero-sign normalization, making `0` and `-0` compare equal. -/
def equalsV (v w : Value) : Bool :=
  decide (encVal (normZeros v) = encVal (normZeros w))

example : equalsV (.num f64PosZero) (.num f64NegZero) = true := rfl
example : encVal (newStruct "S" [("x", .num 42), ("b", .bool true)]) =
    [.u8 9, .s "S", .u32 2, .s "b", .u8 0, .s "x", .u8 1,
     .u8 0, .b true, .u8 1, .f64 42] := rfl

/-- The primitive kind a tag byte denotes, if any. -/
def primKindOfTag (tag : Nat) : Option PrimKind :=
  if tag = NomsKind.bool.tag then some .bool
  else if tag = NomsKind.number.tag then some .number
  else if tag = NomsKind.string.tag then some .string
  else if tag = NomsKind.blob.tag then some .blob
  else if tag = NomsKind.value.tag then some .value
  else if tag = NomsKind.type.tag then some .type
  else none

mutual
/-- Type decoder: reads one type from the token stream, mirroring `encTy`.
`fuel` bounds the depth of the parse tree (the decoder of the sources recurses
on the input; the model makes the recursion structural on a fuel bound that
the entry points instantiate from the stream length). Fails with `none` on
malformed input. -/
def readTy : Nat → List Tok → Option (Ty × List Tok)
  | 0, _ => none
  | _ + 1, [] => none
  | fuel + 1, .u8 tag :: rest =>
    match primKindOfTag tag with
    | some k => some (.prim k, rest)
    | none =>
      if tag = NomsKind.list.tag then
        match readTy fuel rest with
        | some (e, rest') => some (.list e, rest')
        | none => none
      else if tag = NomsKind.set.tag then
        match readTy fuel rest with
        | some (e, rest') => some (.set e, rest')
        | none => none
      else if tag = NomsKind.ref.tag then
        match readTy fuel rest with
        | some (e, rest') => some (.ref e, rest')
        | none => none
      else if tag = NomsKind.map.tag then
        match readTy fuel rest with
        | some (k, rest') =>
          match readTy fuel rest' with
          | some (v, rest'') => some (.map k v, rest'')
          | none => none
        | none => none
      else if tag = NomsKind.union.tag then
        match rest with
        | .u32 n :: rest' =>
          match readTys fuel n rest' with
          | some (ms, rest'') => some (.union ms, rest'')
          | none => none
        | _ => none
      else if tag = NomsKind.struct.tag then
        match rest with
        | .s name :: .u32 n :: rest' =>
          match readFieldTys fuel n rest' with
          | some (fs, rest'') => some (.strct name fs, rest'')
          | none => none
        | _ => none
      else if tag = NomsKind.cycle.tag then
        match rest with
        | .u32 d :: rest' => some (.cycle d, rest')
        | _ => none
      else none
  | _ + 1, _ => none

/-- Reads `n` union members. -/
def readTys : Nat → Nat → List Tok → Option (TyList × List Tok)
  | 0, _, _ => none
  | _ + 1, 0, toks => some (.nil, toks)
  | fuel + 1, n + 1, toks =>
    match readTy fuel toks with
    | some (t, rest) =>
      match readTys fuel n rest with
      | some (ts, rest') => some (.cons t ts, rest')
      | none => none
    | none => none

/-- Reads `n` (field name, field type) pairs of a struct type. -/
def readFieldTys : Nat → Nat → List Tok → Option (FieldTys × List Tok)
  | 0, _, _ => none
  | _ + 1, 0, toks => some (.nil, toks)
  | fuel + 1, n + 1, .s name :: toks =>
    match readTy fuel toks with
    | some (t, rest) =>
      match readFieldTys fuel n rest with
      | some (fs, rest') => some (.cons name t fs, rest')
      | none => none
    | none => none
  | _ + 1, _ + 1, _ => none
end

/-- Entry point of the type decoder: the stream length bounds the parse
depth, so it serves as the fuel. -/
def decodeTy (toks : List Tok) : Option (Ty × List Tok) :=
  readTy (toks.length + 1) toks

/-- Reads the `n` (field name, field type) pairs of a struct value's header,
keeping the names (the values that follow are tagged, so the decoder rebuilds
the fields from names and values). -/
def readFieldTyPairs : Nat → List Tok → Option (List String × List Tok)
  | 0, toks => some ([], toks)
  | n + 1, .s name :: toks =>
    match decodeTy toks with
    | some (_, rest) =>
      match readFieldTyPairs n rest with
      | some (ns, rest') => some (name :: ns, rest')
      | none => none
    | none => none
  | _ + 1, _ => none

/-- Rebuilds a struct value's field list from the header names and the
decoded field values. -/
def zipFields : List String → Values → FieldVals
  | [], _ => .nil
  | _ :: _, .nil => .nil
  | n :: ns, .cons v vs => .cons n v (zipFields ns vs)

mutual
/-- Value decoder, mirroring `encVal`: reads the kind tag and dispatches.
`fuel` bounds the depth of the parse tree; the entry point instantiates it
from the stream length. Fails with `none` on malformed input. -/
def readValue : Nat → List Tok → Option (Value × List Tok)
  | 0, _ => none
  | _ + 1, [] => none
  | fuel + 1, .u8 tag :: rest =>
    if tag = NomsKind.bool.tag then
      match rest with
      | .b v :: rest' => some (.bool v, rest')
      | _ => none
    else if tag = NomsKind.number.tag then
      match rest with
      | .f64 bits :: rest' => some (.num bits, rest')
      | _ => none
    else if tag = NomsKind.string.tag then
      match rest with
      | .s v :: rest' => some (.str v, rest')
      | _ => none
    else if tag = NomsKind.type.tag then
      match decodeTy rest with
      | some (t, rest') => some (.typeV t, rest')
      | none => none
    else if tag = NomsKind.ref.tag then
      match decodeTy rest with
      | some (t, .s target :: .u64 height :: rest') =>
          some (.refV t target height, rest')
      | _ => none
    else if tag = NomsKind.struct.tag then
      match rest with
      | .s name :: .u32 n :: rest' =>
        match readFieldTyPairs n rest' with
        | some (ns, rest'') =>
          match readValues fuel n rest'' with
          | some (vs, rest''') => some (.strct name (zipFields ns vs), rest''')
          | none => none
        | none => none
      | _ => none
    else if tag = NomsKind.list.tag then
      match decodeTy rest with
      | some (_, .b false :: .u32 n :: rest') =>
        match readValues fuel n rest' with
        | some (vs, rest'') => some (.listLeaf vs, rest'')
        | none => none
      | some (_, .b true :: .u32 n :: rest') =>
        match readTuples fuel n rest' with
        | some (ts, rest'') => some (.listMeta ts, rest'')
        | none => none
      | _ => none
    else if tag = NomsKind.set.tag then
      match decodeTy rest with
      | some (_, .b false :: .u32 n :: rest') =>
        match readValues fuel n rest' with
        | some (vs, rest'') => some (.setLeaf vs, rest'')
        | none => none
      | some (_, .b true :: .u32 n :: rest') =>
        match readTuples fuel n rest' with
        | some (ts, rest'') => some (.setMeta ts, rest'')
        | none => none
      | _ => none
    else none
  | _ + 1, _ => none

/-- Reads `n` tagged values. -/
def readValues : Nat → Nat → List Tok → Option (Values × List Tok)
  | 0, _, _ => none
  | _ + 1, 0, toks => some (.nil, toks)
  | fuel + 1, n + 1, toks =>
    match readValue fuel toks with
    | some (v, rest) =>
      match readValues fuel n rest with
      | some (vs, rest') => some (.cons v vs, rest')
      | none => none
    | none => none

/-- Reads `n` meta tuples: each is a Ref to the child chunk, the tagged
ordering key, then the cumulative count. -/
def readTuples : Nat → Nat → List Tok → Option (Tuples × List Tok)
  | 0, _, _ => none
  | _ + 1, 0, toks => some (.nil, toks)
  | fuel + 1, n + 1, .u8 tag :: rest =>
    if tag = NomsKind.ref.tag then
      match decodeTy rest with
      | some (childTy, .s target :: .u64 height :: rest') =>
        match readValue fuel rest' with
        | some (key, .u64 count :: rest'') =>
          match readTuples fuel n rest'' with
          | some (ts, rest''') =>
              some (.cons (.mk childTy target height key count) ts, rest''')
          | none => none
        | _ => none
      | _ => none
    else none
  | _ + 1, _ + 1, _ => none
end

/-- Entry point of the value decoder (`decodeValue` of the codec): decodes one
value from the token stream, requiring the stream to be consumed exactly. -/
def decodeValue (toks : List Tok) : Option Value :=
  match readValue (toks.length + 1) toks with
  | some (v, []) => some v
  | _ => none

example : decodeValue (encVal (.bool true)) = some (.bool true) := rfl
example : decodeValue (encVal (newStruct "S" [("x", .num 42), ("b", .bool true)])) =
    some (.strct "S" (.cons "b" (.bool true) (.cons "x" (.num 42) .nil))) := rfl

mutual
/-- Depth of the type decoder's parse tree on this type's encoding. -/
def pdTy : Ty → Nat
  | .prim _ => 1
  | .list e => pdTy e + 1
  | .set e => pdTy e + 1
  | .ref e => pdTy e + 1
  | .map k v => max (pdTy k) (pdTy v) + 1
  | .union ms => pdTys ms + 1
  | .strct _ fs => pdFieldTys fs + 1
  | .cycle _ => 1

/-- Parse depth of a union member list. -/
def pdTys : TyList → Nat
  | .nil => 1
  | .cons t ts => max (pdTy t) (pdTys ts) + 1

/-- Parse depth of a struct type's field list. -/
def pdFieldTys : FieldTys → Nat
  | .nil => 1
  | .cons _ t fs => max (pdTy t) (pdFieldTys fs) + 1
end

theorem encTy_length_pos (t : Ty) : 1 ≤ (encTy t).length := by
  cases t <;> simp [encTy]

mutual
theorem pdTy_le_length : ∀ t : Ty, pdTy t ≤ (encTy t).length
  | .prim _ => by simp [pdTy, encTy]
  | .list e => by have := pdTy_le_length e; simp [pdTy, encTy]; omega
  | .set e => by have := pdTy_le_length e; simp [pdTy, encTy]; omega
  | .ref e => by have := pdTy_le_length e; simp [pdTy, encTy]; omega
  | .map k v => by
      have := pdTy_le_length k; have := pdTy_le_length v
      have := encTy_length_pos k
      simp [pdTy, encTy]; omega
  | .union ms => by have := pdTys_le_length ms; simp [pdTy, encTy]; omega
  | .strct _ fs => by have := pdFieldTys_le_length fs; simp [pdTy, encTy]; omega
  | .cycle _ => by simp [pdTy, encTy]

theorem pdTys_le_length : ∀ ms : TyList, pdTys ms ≤ (encTys ms).length + 1
  | .nil => by simp [pdTys, encTys]
  | .cons t ts => by
      have := pdTy_le_length t; have := pdTys_le_length ts
      have := encTy_length_pos t
      simp [pdTys, encTys]; omega

theorem pdFieldTys_le_length : ∀ fs : FieldTys, pdFieldTys fs ≤ (encFieldTys fs).length + 1
  | .nil => by simp [pdFieldTys, encFieldTys]
  | .cons _ t fs => by
      have := pdTy_le_length t; have := pdFieldTys_le_length fs
      simp [pdFieldTys, encFieldTys]; omega
end

mutual
theorem readTy_enc : ∀ (t : Ty) (fuel : Nat) (rest : List Tok), pdTy t ≤ fuel →
    readTy fuel (encTy t ++ rest) = some (t, rest)
  | t, 0, _, h => absurd h (by cases t <;> simp [pdTy])
  | .prim k, _ + 1, rest, _ => by
      cases k <;>
        simp [encTy, readTy, primKindOfTag, NomsKind.tag, PrimKind.toKind]
  | .list e, fuel + 1, rest, h => by
      have ih := readTy_enc e fuel rest (by simp [pdTy] at h; omega)
      simp [encTy, readTy, primKindOfTag, NomsKind.tag, ih]
  | .set e, fuel + 1, rest, h => by
      have ih := readTy_enc e fuel rest (by simp [pdTy] at h; omega)
      simp [encTy, readTy, primKindOfTag, NomsKind.tag, ih]
  | .ref e, fuel + 1, rest, h => by
      have ih := readTy_enc e fuel rest (by simp [pdTy] at h; omega)
      simp [encTy, readTy, primKindOfTag, NomsKind.tag, ih]
  | .map k v, fuel + 1, rest, h => by
      have ih1 := readTy_enc k fuel (encTy v ++ rest) (by simp [pdTy] at h; omega)
      have ih2 := readTy_enc v fuel rest (by simp [pdTy] at h; omega)
      simp [encTy, readTy, primKindOfTag, NomsKind.tag, ih1, ih2]
  | .union ms, fuel + 1, rest, h => by
      have ih := readTys_enc ms fuel rest (by simp [pdTy] at h; omega)
      simp [encTy, readTy, primKindOfTag, NomsKind.tag, ih]
  | .strct name fs, fuel + 1, rest, h => by
      have ih := readFieldTys_enc fs fuel rest (by simp [pdTy] at h; omega)
      simp [encTy, readTy, primKindOfTag, NomsKind.tag, ih]
  | .cycle d, _ + 1, rest, _ => by
      simp [encTy, readTy, primKindOfTag, NomsKind.tag]

theorem readTys_enc : ∀ (ms : TyList) (fuel : Nat) (rest : List Tok), pdTys ms ≤ fuel →
    readTys fuel (tyListLen ms) (encTys ms ++ rest) = some (ms, rest)
  | ms, 0, _, h => absurd h (by cases ms <;> simp [pdTys])
  | .nil, _ + 1, rest, _ => by simp [encTys, tyListLen, readTys]
  | .cons t ts, fuel + 1, rest, h => by
      have ih1 := readTy_enc t fuel (encTys ts ++ rest) (by simp [pdTys] at h; omega)
      have ih2 := readTys_enc ts fuel rest (by simp [pdTys] at h; omega)
      simp [encTys, tyListLen, readTys, ih1, ih2]

theorem readFieldTys_enc : ∀ (fs : FieldTys) (fuel : Nat) (rest : List Tok),
    pdFieldTys fs ≤ fuel →
    readFieldTys fuel (fieldTysLen fs) (encFieldTys fs ++ rest) = some (fs, rest)
  | fs, 0, _, h => absurd h (by cases fs <;> simp [pdFieldTys])
  | .nil, _ + 1, rest, _ => by simp [encFieldTys, fieldTysLen, readFieldTys]
  | .cons n t fs, fuel + 1, rest, h => by
      have ih1 := readTy_enc t fuel (encFieldTys fs ++ rest) (by simp [pdFieldTys] at h; omega)
      have ih2 := readFieldTys_enc fs fuel rest (by simp [pdFieldTys] at h; omega)
      simp [encFieldTys, fieldTysLen, readFieldTys, ih1, ih2]
end

/-- The type decoder inverts the type encoder on any stream that starts with
an encoded type. -/
theorem decodeTy_enc (t : Ty) (rest : List Tok) :
    decodeTy (encTy t ++ rest) = some (t, rest) := by
  apply readTy_enc
  have h1 := pdTy_le_length t
  simp
  omega

/-- The field values of a struct value, in field order. -/
def valuesOfFields : FieldVals → Values
  | .nil => .nil
  | .cons _ v fs => .cons v (valuesOfFields fs)

theorem zipFields_names_values : ∀ fs : FieldVals,
    zipFields (fieldNamesOfVals fs) (valuesOfFields fs) = fs
  | .nil => rfl
  | .cons n v fs => by
      simp [fieldNamesOfVals, valuesOfFields, zipFields, zipFields_names_values fs]

theorem valuesLen_valuesOfFields : ∀ fs : FieldVals,
    valuesLen (valuesOfFields fs) = fieldValsLen fs
  | .nil => rfl
  | .cons _ _ fs => by
      simp [valuesOfFields, valuesLen, fieldValsLen, valuesLen_valuesOfFields fs]

theorem readFieldTyPairs_enc : ∀ (fs : FieldVals) (rest : List Tok),
    readFieldTyPairs (fieldValsLen fs) (encFieldTyHeader fs ++ rest) =
      some (fieldNamesOfVals fs, rest)
  | .nil, rest => by simp [fieldValsLen, encFieldTyHeader, readFieldTyPairs, fieldNamesOfVals]
  | .cons n v fs, rest => by
      have hty := decodeTy_enc (typeOf v) (encFieldTyHeader fs ++ rest)
      have ih := readFieldTyPairs_enc fs rest
      simp [fieldValsLen, encFieldTyHeader, readFieldTyPairs, fieldNamesOfVals, hty, ih]

mutual
/-- Depth of the value decoder's parse tree on this value's encoding. -/
def pdV : Value → Nat
  | .bool _ => 1
  | .num _ => 1
  | .str _ => 1
  | .strct _ fs => pdFieldVals fs + 1
  | .refV _ _ _ => 1
  | .typeV _ => 1
  | .listLeaf es => pdValues es + 1
  | .setLeaf es => pdValues es + 1
  | .listMeta ts => pdTuples ts + 1
  | .setMeta ts => pdTuples ts + 1

/-- Parse depth of a leaf sequence's element list. -/
def pdValues : Values → Nat
  | .nil => 1
  | .cons v vs => max (pdV v) (pdValues vs) + 1

/-- Parse depth of a struct value's field list. -/
def pdFieldVals : FieldVals → Nat
  | .nil => 1
  | .cons _ v fs => max (pdV v) (pdFieldVals fs) + 1

/-- Parse depth of a meta node's tuple list. -/
def pdTuples : Tuples → Nat
  | .nil => 1
  | .cons (.mk _ _ _ key _) ts => max (pdV key) (pdTuples ts) + 1
end

theorem encVal_length_pos (v : Value) : 1 ≤ (encVal v).length := by
  cases v <;> simp [encVal]

mutual
theorem pdV_le_length : ∀ v : Value, pdV v ≤ (encVal v).length
  | .bool _ => by simp [pdV, encVal]
  | .num _ => by simp [pdV, encVal]
  | .str _ => by simp [pdV, encVal]
  | .strct _ fs => by have := pdFieldVals_le_length fs; simp [pdV, encVal]; omega
  | .refV _ _ _ => by simp [pdV, encVal]
  | .typeV t => by simp [pdV, encVal]
  | .listLeaf es => by have := pdValues_le_length es; simp [pdV, encVal]; omega
  | .setLeaf es => by have := pdValues_le_length es; simp [pdV, encVal]; omega
  | .listMeta ts => by have := pdTuples_le_length ts; simp [pdV, encVal]; omega
  | .setMeta ts => by have := pdTuples_le_length ts; simp [pdV, encVal]; omega

theorem pdValues_le_length : ∀ vs : Values, pdValues vs ≤ (encValues vs).length + 1
  | .nil => by simp [pdValues, encValues]
  | .cons v vs => by
      have := pdV_le_length v; have := pdValues_le_length vs
      have := encVal_length_pos v
      simp [pdValues, encValues]; omega

theorem pdFieldVals_le_length : ∀ fs : FieldVals,
    pdFieldVals fs ≤ (encFieldVals fs).length + 1
  | .nil => by simp [pdFieldVals, encFieldVals]
  | .cons _ v fs => by
      have := pdV_le_length v; have := pdFieldVals_le_length fs
      have := encVal_length_pos v
      simp [pdFieldVals, encFieldVals]; omega

theorem pdTuples_le_length : ∀ ts : Tuples, pdTuples ts ≤ (encTuples ts).length + 1
  | .nil => by simp [pdTuples, encTuples]
  | .cons (.mk _ _ _ key _) ts => by
      have := pdV_le_length key; have := pdTuples_le_length ts
      have := encVal_length_pos key
      simp [pdTuples, encTuples]; omega
end

mutual
theorem readValue_enc : ∀ (v : Value) (fuel : Nat) (rest : List Tok), pdV v ≤ fuel →
    readValue fuel (encVal v ++ rest) = some (v, rest)
  | v, 0, _, h => absurd h (by cases v <;> simp [pdV])
  | .bool b, _ + 1, rest, _ => by simp [encVal, readValue, NomsKind.tag]
  | .num bits, _ + 1, rest, _ => by simp [encVal, readValue, NomsKind.tag]
  | .str v, _ + 1, rest, _ => by simp [encVal, readValue, NomsKind.tag]
  | .typeV t, _ + 1, rest, _ => by
      have hty := decodeTy_enc t rest
      simp [encVal, readValue, NomsKind.tag, hty]
  | .refV t target height, _ + 1, rest, _ => by
      have hty := decodeTy_enc t (.s target :: .u64 height :: rest)
      simp [encVal, readValue, NomsKind.tag, hty]
  | .strct name fs, fuel + 1, rest, h => by
      have hpairs := readFieldTyPairs_enc fs (encFieldVals fs ++ rest)
      have hvals := readFieldVals_enc fs fuel rest (by simp [pdV] at h; omega)
      simp [encVal, readValue, NomsKind.tag, hpairs, hvals, zipFields_names_values]
  | .listLeaf es, fuel + 1, rest, h => by
      have hty := decodeTy_enc (unionOfObserved (typesOfValues es))
        (.b false :: .u32 (valuesLen es) :: (encValues es ++ rest))
      have hvs := readValues_enc es fuel rest (by simp [pdV] at h; omega)
      simp [encVal, readValue, NomsKind.tag, hty, hvs]
  | .setLeaf es, fuel + 1, rest, h => by
      have hty := decodeTy_enc (unionOfObserved (typesOfValues es))
        (.b false :: .u32 (valuesLen es) :: (encValues es ++ rest))
      have hvs := readValues_enc es fuel rest (by simp [pdV] at h; omega)
      simp [encVal, readValue, NomsKind.tag, hty, hvs]
  | .listMeta ts, fuel + 1, rest, h => by
      have hty := decodeTy_enc (unionOfObserved (dedupTys (elemTysOfTuples ts)))
        (.b true :: .u32 (tuplesLen ts) :: (encTuples ts ++ rest))
      have hts := readTuples_enc ts fuel rest (by simp [pdV] at h; omega)
      simp [encVal, readValue, NomsKind.tag, hty, hts]
  | .setMeta ts, fuel + 1, rest, h => by
      have hty := decodeTy_enc (unionOfObserved (dedupTys (elemTysOfTuples ts)))
        (.b true :: .u32 (tuplesLen ts) :: (encTuples ts ++ rest))
      have hts := readTuples_enc ts fuel rest (by simp [pdV] at h; omega)
      simp [encVal, readValue, NomsKind.tag, hty, hts]

theorem readValues_enc : ∀ (vs : Values) (fuel : Nat) (rest : List Tok), pdValues vs ≤ fuel →
    readValues fuel (valuesLen vs) (encValues vs ++ rest) = some (vs, rest)
  | vs, 0, _, h => absurd h (by cases vs <;> simp [pdValues])
  | .nil, _ + 1, rest, _ => by simp [encValues, valuesLen, readValues]
  | .cons v vs, fuel + 1, rest, h => by
      have ih1 := readValue_enc v fuel (encValues vs ++ rest) (by simp [pdValues] at h; omega)
      have ih2 := readValues_enc vs fuel rest (by simp [pdValues] at h; omega)
      simp [encValues, valuesLen, readValues, ih1, ih2]

theorem readFieldVals_enc : ∀ (fs : FieldVals) (fuel : Nat) (rest : List Tok),
    pdFieldVals fs ≤ fuel →
    readValues fuel (fieldValsLen fs) (encFieldVals fs ++ rest) =
      some (valuesOfFields fs, rest)
  | fs, 0, _, h => absurd h (by cases fs <;> simp [pdFieldVals])
  | .nil, _ + 1, rest, _ => by simp [encFieldVals, fieldValsLen, readValues, valuesOfFields]
  | .cons n v fs, fuel + 1, rest, h => by
      have ih1 := readValue_enc v fuel (encFieldVals fs ++ rest)
        (by simp [pdFieldVals] at h; omega)
      have ih2 := readFieldVals_enc fs fuel rest (by simp [pdFieldVals] at h; omega)
      simp [encFieldVals, fieldValsLen, readValues, valuesOfFields, ih1, ih2]

theorem readTuples_enc : ∀ (ts : Tuples) (fuel : Nat) (rest : List Tok), pdTuples ts ≤ fuel →
    readTuples fuel (tuplesLen ts) (encTuples ts ++ rest) = some (ts, rest)
  | ts, 0, _, h => absurd h (by cases ts with
      | nil => simp [pdTuples]
      | cons t ts => cases t; simp [pdTuples])
  | .nil, _ + 1, rest, _ => by simp [encTuples, tuplesLen, readTuples]
  | .cons (.mk childTy target height key count) ts, fuel + 1, rest, h => by
      have hty := decodeTy_enc childTy
        (.s target :: .u64 height ::
          (encVal key ++ (.u64 count :: (encTuples ts ++ rest))))
      have hkey := readValue_enc key fuel (.u64 count :: (encTuples ts ++ rest))
        (by simp [pdTuples] at h; omega)
      have ih := readTuples_enc ts fuel rest (by simp [pdTuples] at h; omega)
      simp [encTuples, tuplesLen, readTuples, NomsKind.tag, hty, hkey, ih]
end

/-- The value decoder inverts the value encoder exactly: decoding the
encoding of any value yields that value back. -/
theorem decodeValue_enc (v : Value) : decodeValue (encVal v) = some v := by
  have h := readValue_enc v ((encVal v).length + 1) []
    (by have := pdV_le_length v; omega)
  simp at h
  simp [decodeValue, h]

/-- The field types of a struct type, in field order. -/
def fieldTysList : FieldTys → List Ty
  | .nil => []
  | .cons _ t fs => t :: fieldTysList fs

/-- `Type.ChildValues` (type.go): the component types a descriptor holds
inline — the element types of a compound descriptor, the field types of a
struct descriptor, nothing for a primitive. -/
def ChildValuesT : Ty → List Ty
  | .prim _ => []
  | .list e => [e]
  | .set e => [e]
  | .ref e => [e]
  | .map k v => [k, v]
  | .union ms => ms.toList
  | .strct _ fs => fieldTysList fs
  | .cycle _ => []

/-- A chunk (`chunks.Chunk`): an immutable content-addressed byte block,
carried as its hash string plus its bytes. -/
structure Chunk where
  hash : String
  data : List Nat
deriving DecidableEq, Repr

/-- `Hints` (batch_store.go): a set of hashes that may speed up validation,
modelled as a list. -/
abbrev Hints := List String

/-- The observable state of the underlying `chunks.ChunkStore`: the chunks
handed to `Put` so far, in order, and whether `Close` was called. -/
structure ChunkStoreState where
  puts : List Chunk
  closed : Bool
deriving DecidableEq, Repr

/-- `ChunkStore.Put`: hands a chunk to the backing store. -/
def csPut (s : ChunkStoreState) (c : Chunk) : ChunkStoreState :=
  { s with puts := s.puts ++ [c] }

/-- `ChunkStore.Close`: releases the backing store. -/
def csClose (s : ChunkStoreState) : ChunkStoreState :=
  { s with closed := true }

/-- `BatchStoreAdaptor` (batch_store.go): a naive `BatchStore` wrapping a
`ChunkStore`, with no batching and no validation. -/
structure BatchStoreAdaptor where
  cs : ChunkStoreState
deriving DecidableEq, Repr

/-- `BatchStoreAdaptor.SchedulePut`: `lbs.cs.Put(c)` — an immediate
synchronous `Put` on the underlying store; the `hints` argument is unused. -/
def BatchStoreAdaptor.SchedulePut (a : BatchStoreAdaptor) (c : Chunk) (_hints : Hints) :
    BatchStoreAdaptor :=
  ⟨csPut a.cs c⟩

/-- `BatchStoreAdaptor.Flush`: a noop. -/
def BatchStoreAdaptor.Flush (a : BatchStoreAdaptor) : BatchStoreAdaptor := a

/-- `BatchStoreAdaptor.Close`: `lbs.Flush()` then `lbs.cs.Close()`. -/
def BatchStoreAdaptor.Close (a : BatchStoreAdaptor) : BatchStoreAdaptor :=
  ⟨csClose a.Flush.cs⟩

/-- One call against the batch store. -/
inductive BatchOp where
  | schedulePut (c : Chunk) (hints : Hints)
  | flush

/-- Runs a call sequence against the adaptor. -/
def runOps (a : BatchStoreAdaptor) : List BatchOp → BatchStoreAdaptor
  | [] => a
  | .schedulePut c h :: ops => runOps (a.SchedulePut c h) ops
  | .flush :: ops => runOps a.Flush ops

/-- The chunks a call sequence schedules. -/
def scheduledChunks : List BatchOp → List Chunk
  | [] => []
  | .schedulePut c _ :: ops => c :: scheduledChunks ops
  | .flush :: ops => scheduledChunks ops

theorem runOps_puts_mono (a : BatchStoreAdaptor) (ops : List BatchOp) (c : Chunk)
    (h : c ∈ a.cs.puts) : c ∈ (runOps a ops).cs.puts := by
  induction ops generalizing a with
  | nil => exact h
  | cons op ops ih =>
      cases op with
      | schedulePut c' hints =>
          exact ih _ (by simp [BatchStoreAdaptor.SchedulePut, csPut]; exact Or.inl h)
      | flush => exact ih _ h

theorem scheduled_in_runOps (a : BatchStoreAdaptor) (ops : List BatchOp) (c : Chunk)
    (h : c ∈ scheduledChunks ops) : c ∈ (runOps a ops).cs.puts := by
  induction ops generalizing a with
  | nil => simp [scheduledChunks] at h
  | cons op ops ih =>
      cases op with
      | schedulePut c' hints =>
          simp [scheduledChunks] at h
          rcases h with h | h
          · subst h
            exact runOps_puts_mono _ ops c (by simp [BatchStoreAdaptor.SchedulePut, csPut])
          · exact ih _ h
      | flush => exact ih _ (by simpa [scheduledChunks] using h)

theorem TyList.toList_ofList : ∀ l : List Ty, (TyList.ofList l).toList = l
  | [] => rfl
  | t :: ts => by simp [TyList.ofList, TyList.toList, TyList.toList_ofList ts]

theorem encTy_union_ofList (l : List Ty) :
    encTy (.union (TyList.ofList l)) =
      .u8 NomsKind.union.tag :: .u32 l.length :: (l.map encTy).flatten := by
  have hlen : ∀ l' : List Ty, tyListLen (TyList.ofList l') = l'.length := by
    intro l'; induction l' with
    | nil => rfl
    | cons t ts ih => simp [TyList.ofList, tyListLen, ih]
  have henc : ∀ l' : List Ty, encTys (TyList.ofList l') = (l'.map encTy).flatten := by
    intro l'; induction l' with
    | nil => rfl
    | cons t ts ih => simp [TyList.ofList, encTys, ih]
  simp [encTy, hlen, henc]

instance : IsTotal Ty unionLe := ⟨fun a b => le_total (typeAddr a) (typeAddr b)⟩

instance : IsTrans Ty unionLe := ⟨fun _ _ _ hab hbc => le_trans hab hbc⟩

theorem unionMembers_makeUnionType (ts : List Ty) :
    unionMembers (MakeUnionType ts) = List.insertionSort unionLe ts := by
  simp [MakeUnionType, unionMembers, TyList.toList_ofList]

theorem makeUnionType_sorted (ts : List Ty) :
    List.Pairwise unionLe (unionMembers (MakeUnionType ts)) := by
  rw [unionMembers_makeUnionType]
  exact List.sorted_insertionSort unionLe ts

theorem makeUnionType_perm {ts us : List Ty} (h : ts.Perm us) :
    encTy (MakeUnionType ts) = encTy (MakeUnionType us) := by
  haveI : IsAntisymm (List Tok) (fun x y => x ≤ y) := ⟨fun _ _ => le_antisymm⟩
  have hsts : List.Pairwise (fun x y : List Tok => x ≤ y)
      ((List.insertionSort unionLe ts).map encTy) :=
    (List.sorted_insertionSort unionLe ts).map encTy (fun _ _ hr => hr)
  have hsus : List.Pairwise (fun x y : List Tok => x ≤ y)
      ((List.insertionSort unionLe us).map encTy) :=
    (List.sorted_insertionSort unionLe us).map encTy (fun _ _ hr => hr)
  have hperm : ((List.insertionSort unionLe ts).map encTy).Perm
      ((List.insertionSort unionLe us).map encTy) :=
    ((List.perm_insertionSort _ ts).map encTy).trans
      ((h.map encTy).trans ((List.perm_insertionSort _ us).map encTy).symm)
  have hmap : (List.insertionSort unionLe ts).map encTy =
      (List.insertionSort unionLe us).map encTy :=
    List.eq_of_perm_of_sorted hperm hsts hsus
  simp only [MakeUnionType, encTy_union_ofList]
  rw [hmap, List.length_insertionSort, List.length_insertionSort, h.length_eq]

/-- Field-name ordering: lexicographic on character codes. -/
def nameLe (a b : String) : Prop := strKey a ≤ strKey b

instance : DecidableRel nameLe := fun a b => by
  unfold nameLe; infer_instance

theorem fieldNamesOfVals_ofList : ∀ l : List (String × Value),
    fieldNamesOfVals (FieldVals.ofList l) = l.map Prod.fst
  | [] => rfl
  | (n, v) :: fs => by
      simp [FieldVals.ofList, fieldNamesOfVals, fieldNamesOfVals_ofList fs]

/-- The struct value's field slot, used to observe the stored field order. -/
def fieldsOf : Value → FieldVals
  | .strct _ fs => fs
  | _ => .nil

theorem newStruct_fieldNames (name : String) (fields : List (String × Value)) :
    fieldNamesOfVals (fieldsOf (newStruct name fields)) =
      List.insertionSort nameLe (fields.map Prod.fst) := by
  rw [newStruct, fieldsOf, fieldNamesOfVals_ofList]
  exact List.map_insertionSort fieldValLe nameLe Prod.fst fields
    (fun _ _ _ _ => Iff.rfl)

/-!  The claims.  -/

/-- C1: for every value constructible from the data-model grammar, decoding
the encoding yields a value structurally equal to it — here the decoder
inverts the encoder exactly, on every value including `0`, `-0`, `1e18`,
`1e19`, `1e20`, empty and multi-byte strings, structs of any nesting, refs,
and leaf and meta lists and sets — and the bit patterns of `0` and `-0` both
round-trip while comparing equal to each other. -/
theorem c1_decode_encode_roundtrip :
    (∀ v : Value, decodeValue (encVal v) = some v ∧ equalsV v v = true)
    ∧ decodeValue (encVal (.num f64NegZero)) = some (.num f64NegZero)
    ∧ equalsV (.num f64PosZero) (.num f64NegZero) = true := by
  refine ⟨fun v => ⟨decodeValue_enc v, ?_⟩, decodeValue_enc _, rfl⟩
  simp [equalsV]

/-- C2 counterexample: the struct built from insertion order
`[("x", 42), ("b", true)]` — the struct of the codec test — stores and encodes
its (field name, field type) pairs and field values in the order
`["b", "x"]`, not the insertion order `["x", "b"]`, refuting the claim that
the canonical field order is the insertion order. -/
theorem c2_insertion_order_cex :
    fieldNamesOfVals (fieldsOf (newStruct "S" [("x", .num 42), ("b", .bool true)]))
      = ["b", "x"]
    ∧ encVal (newStruct "S" [("x", .num 42), ("b", .bool true)]) =
        [.u8 9, .s "S", .u32 2, .s "b", .u8 0, .s "x", .u8 1,
         .u8 0, .b true, .u8 1, .f64 42]
    ∧ (["b", "x"] : List String) ≠ ["x", "b"] :=
  ⟨rfl, rfl, by decide⟩

/-- C2 (amended): the canonical field order of a struct — the order of the
(field name, field type) pairs and of the field values in the wire format —
is the insertion-order field names sorted lexicographically, and that order is
preserved across encode/decode. -/
theorem c2_canonical_field_order :
    ∀ (name : String) (fields : List (String × Value)),
      fieldNamesOfVals (fieldsOf (newStruct name fields)) =
        List.insertionSort nameLe (fields.map Prod.fst)
      ∧ decodeValue (encVal (newStruct name fields)) = some (newStruct name fields) :=
  fun name fields => ⟨newStruct_fieldNames name fields, decodeValue_enc _⟩

/-- C3 counterexample: `MakeUnionType` does not deduplicate — applied to
`[Bool, Bool]` it returns a union whose member list keeps both members of
equal content address, and duplicating a member changes the resulting type. -/
theorem c3_union_dedup_cex :
    unionMembers (MakeUnionType [BoolType, BoolType]) = [BoolType, BoolType]
    ∧ ¬ List.Pairwise (fun a b => typeAddr a ≠ typeAddr b)
        (unionMembers (MakeUnionType [BoolType, BoolType]))
    ∧ TypeEquals (MakeUnionType [BoolType, BoolType])
        (some (MakeUnionType [BoolType])) = false := by
  refine ⟨rfl, fun hp => ?_, rfl⟩
  rw [unionMembers_makeUnionType] at hp
  cases hp with
  | cons h1 _ => exact h1 BoolType (by simp [List.insertionSort]) rfl

/-- C3 (amended): `MakeUnionType` sorts the member list by the members'
content addresses (duplicates retained), so applying it to any permutation of
the same member list yields an equal type. -/
theorem c3_union_sorted_perm :
    (∀ ts : List Ty, List.Pairwise unionLe (unionMembers (MakeUnionType ts)))
    ∧ ∀ ts us : List Ty, ts.Perm us →
        TypeEquals (MakeUnionType ts) (some (MakeUnionType us)) = true := by
  refine ⟨makeUnionType_sorted, fun ts us h => ?_⟩
  simp [TypeEquals, typeAddr, makeUnionType_perm h]

/-- Witness for C3 (amended): a transposed member list yields an equal union
type, and a concrete union's members come out sorted. -/
theorem c3_union_sorted_perm_witness :
    TypeEquals (MakeUnionType [NumberType, BoolType])
      (some (MakeUnionType [BoolType, NumberType])) = true
    ∧ List.Pairwise unionLe (unionMembers (MakeUnionType [StringType, BoolType])) :=
  ⟨c3_union_sorted_perm.2 [NumberType, BoolType] [BoolType, NumberType]
      (List.Perm.swap BoolType NumberType []),
   c3_union_sorted_perm.1 [StringType, BoolType]⟩

/-- C4: `Equals` holds iff the content addresses over the canonical encodings
agree; two struct types independently constructed with the same name, field
names, field types and field order are equal; changing only the struct name
makes them unequal. -/
theorem c4_type_equality :
    (∀ t u : Ty, TypeEquals t (some u) = true ↔ typeAddr t = typeAddr u)
    ∧ (∀ name fields t u, MakeStructType name fields = some t →
        MakeStructType name fields = some u → TypeEquals t (some u) = true)
    ∧ (∀ n₁ n₂ fields t u, n₁ ≠ n₂ →
        MakeStructType n₁ fields = some t → MakeStructType n₂ fields = some u →
        TypeEquals t (some u) = false) := by
  refine ⟨fun t u => by simp [TypeEquals],
    fun name fields t u h1 h2 => ?_,
    fun n₁ n₂ fields t u hne h1 h2 => ?_⟩
  · rw [h1] at h2
    cases h2
    simp [TypeEquals]
  · by_cases hc : fields.all (fun f => verifyFieldName f.1) <;>
      simp [MakeStructType, hc] at h1 h2
    subst h1; subst h2
    simp only [TypeEquals]
    rw [decide_eq_false_iff_not]
    intro heq
    simp [typeAddr, encTy] at heq
    exact hne heq

/-- Witness for C4: concrete equal and name-differing struct types. -/
theorem c4_type_equality_witness :
    TypeEquals (Ty.strct "S" (.cons "a" NumberType .nil))
      (some (.strct "S" (.cons "a" NumberType .nil))) = true
    ∧ TypeEquals (Ty.strct "S" (.cons "a" NumberType .nil))
      (some (.strct "T" (.cons "a" NumberType .nil))) = false :=
  ⟨c4_type_equality.2.1 "S" [("a", NumberType)]
      (Ty.strct "S" (.cons "a" NumberType .nil))
      (Ty.strct "S" (.cons "a" NumberType .nil)) rfl rfl,
   c4_type_equality.2.2 "S" "T" [("a", NumberType)]
      (Ty.strct "S" (.cons "a" NumberType .nil))
      (Ty.strct "T" (.cons "a" NumberType .nil)) (by decide) rfl rfl⟩

/-- C5: `MakeStructType` fails exactly when some supplied field name does not
match `^[A-Za-z][A-Za-z0-9_]*$`, rejecting the test's eight invalid names and
accepting its five valid ones. -/
theorem c5_field_name_validation :
    (∀ name fields, (MakeStructType name fields).isSome =
        fields.all (fun f => verifyFieldName f.1))
    ∧ (∀ n, MakeStructType "S" [(n, StringType)] = none ↔ verifyFieldName n = false)
    ∧ ([("" : String), " ", " a", "a ", "0", "_", "0a", "_a"].all
        (fun n => (MakeStructType "S" [(n, StringType)]).isNone) = true)
    ∧ ([("a" : String), "A", "a0", "a_", "a0_"].all
        (fun n => (MakeStructType "S" [(n, StringType)]).isSome) = true) := by
  refine ⟨fun name fields => ?_, fun n => ?_, rfl, rfl⟩
  · by_cases hc : fields.all (fun f => verifyFieldName f.1) <;> simp [MakeStructType, hc]
  · by_cases hc : verifyFieldName n <;> simp [MakeStructType, hc]

/-- C6: `IsOrdered` is true exactly when the kind is Number, String or Ref,
and false on the Bool, Blob, Value, Type, List, Set and Map types of the
test. -/
theorem c6_is_ordered :
    (∀ t : Ty, t.IsOrdered = true ↔
        (t.kind = .number ∨ t.kind = .string ∨ t.kind = .ref))
    ∧ BoolType.IsOrdered = false ∧ NumberType.IsOrdered = true
    ∧ StringType.IsOrdered = true ∧ BlobType.IsOrdered = false
    ∧ ValueType.IsOrdered = false ∧ TypeType.IsOrdered = false
    ∧ (MakeListType StringType).IsOrdered = false
    ∧ (MakeSetType StringType).IsOrdered = false
    ∧ (MakeMapType StringType ValueType).IsOrdered = false
    ∧ (MakeRefType StringType).IsOrdered = true := by
  refine ⟨fun t => ?_, rfl, rfl, rfl, rfl, rfl, rfl, rfl, rfl, rfl, rfl⟩
  cases t
  case prim k => cases k <;> simp [Ty.IsOrdered, Ty.kind, PrimKind.toKind]
  all_goals simp [Ty.IsOrdered, Ty.kind]

/-- The depth-1 self-referential struct type of the recursive-struct tests:
`struct A6 { cs: List<Cycle 0>, v: Number }` — the self-reference is the
Cycle marker of depth 0, not a re-walk of the cycle. -/
def recursiveStructType : Ty :=
  .strct "A6" (.cons "cs" (.list (.cycle 0)) (.cons "v" NumberType .nil))

/-- C7: the depth-1 self-referential struct type encodes with a Cycle marker
carrying nesting depth 0 (the `.u8 11, .u32 0` tokens below), its encoding
and content address are computed by the total encoder (each conjunct is a
terminating `rfl` evaluation, with no stack overflow or divergence), and it
decodes back — both as a bare type and as a type value — to an equal type. -/
theorem c7_recursive_struct_type :
    encTy recursiveStructType =
      [.u8 9, .s "A6", .u32 2, .s "cs", .u8 5, .u8 11, .u32 0, .s "v", .u8 1]
    ∧ decodeTy (encTy recursiveStructType) = some (recursiveStructType, [])
    ∧ decodeValue (encVal (.typeV recursiveStructType)) =
        some (.typeV recursiveStructType)
    ∧ TypeEquals recursiveStructType (some recursiveStructType) = true :=
  ⟨rfl, rfl, rfl, rfl⟩

/-- C8: `SchedulePut` performs an immediate synchronous `Put` on the
underlying store and ignores its hints argument; `Flush` changes nothing;
`Close` flushes and then closes the underlying store; and after `Close` every
chunk scheduled by any call sequence has been handed to the underlying
store. -/
theorem c8_batch_store_adaptor :
    (∀ a c hints, BatchStoreAdaptor.SchedulePut a c hints = ⟨csPut a.cs c⟩)
    ∧ (∀ a c h₁ h₂, BatchStoreAdaptor.SchedulePut a c h₁ =
        BatchStoreAdaptor.SchedulePut a c h₂)
    ∧ (∀ a, BatchStoreAdaptor.Flush a = a)
    ∧ (∀ a, BatchStoreAdaptor.Close a = ⟨csClose (BatchStoreAdaptor.Flush a).cs⟩)
    ∧ (∀ a ops c, c ∈ scheduledChunks ops →
        c ∈ (BatchStoreAdaptor.Close (runOps a ops)).cs.puts
        ∧ (BatchStoreAdaptor.Close (runOps a ops)).cs.closed = true) := by
  refine ⟨fun _ _ _ => rfl, fun _ _ _ _ => rfl, fun _ => rfl, fun _ => rfl,
    fun a ops c h => ⟨?_, rfl⟩⟩
  have hmem := scheduled_in_runOps a ops c h
  simpa [BatchStoreAdaptor.Close, BatchStoreAdaptor.Flush, csClose] using hmem

/-- Witness for C8: a concrete schedule-then-flush sequence leaves the
scheduled chunk in the closed underlying store. -/
theorem c8_batch_store_adaptor_witness :
    (⟨"h1", [0, 1]⟩ : Chunk) ∈
      (BatchStoreAdaptor.Close (runOps ⟨⟨[], false⟩⟩
        [.schedulePut ⟨"h1", [0, 1]⟩ ["hint"], .flush])).cs.puts
    ∧ (BatchStoreAdaptor.Close (runOps ⟨⟨[], false⟩⟩
        [.schedulePut ⟨"h1", [0, 1]⟩ ["hint"], .flush])).cs.closed = true :=
  c8_batch_store_adaptor.2.2.2.2 ⟨⟨[], false⟩⟩
    [.schedulePut ⟨"h1", [0, 1]⟩ ["hint"], .flush] ⟨"h1", [0, 1]⟩
    (by simp [scheduledChunks])

/-- C9: `Equals` against an absent (nil) value returns false, as a total
operation. -/
theorem c9_equals_nil : ∀ t : Ty, TypeEquals t none = false := fun _ => rfl

/-- C10: `Chunks` returns the empty list for every type value, regardless of
structure; the component types are held inline as child values instead. -/
theorem c10_type_chunks :
    (∀ t : Ty, TypeChunks t = [])
    ∧ (∀ e, ChildValuesT (MakeListType e) = [e] ∧ ChildValuesT (MakeSetType e) = [e]
        ∧ ChildValuesT (MakeRefType e) = [e])
    ∧ (∀ k v, ChildValuesT (MakeMapType k v) = [k, v]) :=
  ⟨fun _ => rfl, fun _ => ⟨rfl, rfl, rfl⟩, fun _ _ => rfl⟩

end Noms
